import Mathlib

/-!
Verification of the klassy repository: a Go library exposing a `String`
wrapper (package String, src/String/string.go) and a generic `Slice`
wrapper (package Slice, src/Slice/slice.go), both thin adapters over the
standard library `strings` and `slices` packages.

Embedding conventions:
* a Go slice value `Slice[T]{Items: ...}` is embedded as its list of
  elements (`List T`); Go `int` indices are embedded as `Int`;
* Go operations that can panic (out-of-bounds indexing, invalid delete
  bounds) return `Option`: `none` models the panic, `some` the normal
  result;
* a Go string is embedded as its list of runes (`List Char`); Go's
  byte-level `len` is recovered as the sum of the UTF-8 sizes of the
  runes, which is exactly the length of the string's UTF-8 encoding;
* aliasing behaviour (for `Clone`) is modelled with an explicit store of
  arrays addressed by references, mirroring Go's array/slice-header
  semantics.
-/

namespace GoSlice

/-- `New` (slice.go): copies the incoming elements into freshly owned
backing storage; at the level of element values it is the identity. -/
def NewS {T : Type} (items : List T) : List T :=
  items

/-- `Length` (slice.go): `len(self.Items)`. -/
def Length {T : Type} (items : List T) : Int :=
  items.length

/-- `At` (slice.go): `return self.Items[n]`. Go's native indexing panics
unless `0 <= n < len`; the panic is modelled as `none`. -/
def At {T : Type} (items : List T) (n : Int) : Option T :=
  if 0 ≤ n ∧ n < items.length then items[n.toNat]? else none

/-- The index write `self.Items[i] = v` through the exported `Items`
field of the `Slice` struct (slice.go lines 11-13; the doc comment of
`At` explicitly endorses direct `Slice{}.Items[n]` access). Go's native
indexed assignment panics unless `0 <= i < len`, modelled as `none`. -/
def SetItem {T : Type} (items : List T) (i : Int) (v : T) : Option (List T) :=
  if 0 ≤ i ∧ i < items.length then some (items.set i.toNat v) else none

/-- `Delete` (slice.go): `slices.Delete(self.Items, i, j)` removes
`Items[i:j]`; it panics unless `0 <= i <= j <= len` (modelled as
`none`), and otherwise the retained value is `Items[:i] ++ Items[j:]`. -/
def Delete {T : Type} (items : List T) (i j : Int) : Option (List T) :=
  if 0 ≤ i ∧ i ≤ j ∧ j ≤ items.length then
    some (items.take i.toNat ++ items.drop j.toNat)
  else none

/-- The element loop of `slices.Equal`: compare pairwise in increasing
index order, stopping at the first unequal pair. Only invoked on lists
of equal length (after the length test in `Equal`). -/
def equalElems {T : Type} [DecidableEq T] : List T → List T → Bool
  | a :: as, b :: bs => if a = b then equalElems as bs else false
  | _, _ => true

/-- `Equal` (slice.go): `slices.Equal(self.Items, other.Items)` — false
if the lengths differ, else ordered pairwise comparison. -/
def Equal {T : Type} [DecidableEq T] (s1 s2 : List T) : Bool :=
  if s1.length ≠ s2.length then false else equalElems s1 s2

end GoSlice

theorem equalElems_refl {T : Type} [DecidableEq T] (q : List T) :
    GoSlice.equalElems q q = true := by
  induction q with
  | nil => rfl
  | cons a as ih => simp [GoSlice.equalElems, ih]

theorem equalElems_symm {T : Type} [DecidableEq T] (q r : List T) :
    GoSlice.equalElems q r = GoSlice.equalElems r q := by
  induction q generalizing r with
  | nil => cases r <;> rfl
  | cons a as ih =>
    cases r with
    | nil => rfl
    | cons b bs =>
      by_cases hab : a = b
      · subst hab
        simp [GoSlice.equalElems, ih]
      · have hba : ¬ b = a := fun h => hab h.symm
        simp [GoSlice.equalElems, hab, hba]

/-- Claim C1: for every sequence wrapper `q` and in-bounds index `i`,
after the write `q.Items[i] = v` (the `Set` operation provided through
the exported `Items` field), `q.At(i)` returns `v`. -/
theorem set_then_at {T : Type} (items : List T) (i : Int) (v : T)
    (h0 : 0 ≤ i) (h1 : i < items.length) :
    ∃ items', GoSlice.SetItem items i v = some items' ∧
      GoSlice.At items' i = some v := by
  refine ⟨items.set i.toNat v, ?_, ?_⟩
  · simp [GoSlice.SetItem, h0, h1]
  · have hi : i.toNat < items.length := by omega
    simp only [GoSlice.At, List.length_set]
    rw [if_pos ⟨h0, h1⟩]
    exact List.getElem?_set_self hi

/-- Witness for C1 at a concrete input. -/
theorem set_then_at_witness :
    (0 : Int) ≤ 1 ∧ (1 : Int) < ([10, 20, 30] : List Nat).length ∧
      ∃ items', GoSlice.SetItem [10, 20, 30] 1 (5 : Nat) = some items' ∧
        GoSlice.At items' 1 = some 5 :=
  ⟨by decide, by decide, set_then_at [10, 20, 30] 1 5 (by decide) (by decide)⟩

/-- Claim C2: `Delete(i, j)` with `0 <= i <= j <= Length()` succeeds and
the new length is the original length minus `j - i`; for any other
`i, j` it panics (returns `none`), not a recoverable error value. -/
theorem delete_length {T : Type} (items : List T) (i j : Int) :
    (0 ≤ i ∧ i ≤ j ∧ j ≤ items.length →
      ∃ items', GoSlice.Delete items i j = some items' ∧
        GoSlice.Length items' = GoSlice.Length items - (j - i)) ∧
    (¬ (0 ≤ i ∧ i ≤ j ∧ j ≤ items.length) →
      GoSlice.Delete items i j = none) := by
  constructor
  · rintro ⟨h0, hij, hj⟩
    refine ⟨items.take i.toNat ++ items.drop j.toNat, ?_, ?_⟩
    · simp [GoSlice.Delete, h0, hij, hj]
    · simp only [GoSlice.Length, List.length_append, List.length_take,
        List.length_drop]
      omega
  · intro h
    simp only [GoSlice.Delete, if_neg h]

/-- Witness for C2 at a concrete input (both branches). -/
theorem delete_length_witness :
    ((0 : Int) ≤ 1 ∧ (1 : Int) ≤ 2 ∧ (2 : Int) ≤ ([4, 5, 6] : List Nat).length ∧
      ∃ items', GoSlice.Delete [4, 5, 6] 1 2 = some items' ∧
        GoSlice.Length items' = GoSlice.Length [4, 5, 6] - (2 - 1)) ∧
    GoSlice.Delete ([4, 5, 6] : List Nat) 2 1 = none :=
  ⟨⟨by decide, by decide, by decide,
      (delete_length [4, 5, 6] 1 2).1 ⟨by decide, by decide, by decide⟩⟩,
    (delete_length [4, 5, 6] 2 1).2 (by decide)⟩

/-- Claim C3: `Equal` is reflexive and symmetric, two independently
constructed empty sequences are equal, and sequences of different
lengths are never equal. -/
theorem equal_props {T : Type} [DecidableEq T] :
    (∀ q : List T, GoSlice.Equal q q = true) ∧
    (∀ q r : List T, GoSlice.Equal q r = GoSlice.Equal r q) ∧
    (GoSlice.Equal (GoSlice.NewS ([] : List T)) (GoSlice.NewS []) = true) ∧
    (∀ q r : List T, q.length ≠ r.length → GoSlice.Equal q r = false) := by
  refine ⟨?_, ?_, ?_, ?_⟩
  · intro q
    simp [GoSlice.Equal, equalElems_refl]
  · intro q r
    by_cases h : q.length = r.length
    · simp [GoSlice.Equal, h, equalElems_symm]
    · have h' : ¬ r.length = q.length := fun hh => h hh.symm
      simp [GoSlice.Equal, h, h']
  · rfl
  · intro q r h
    simp [GoSlice.Equal, h]

/-- Witness for C3 at concrete inputs. -/
theorem equal_props_witness :
    GoSlice.Equal ([1, 2] : List Nat) [1, 2] = true ∧
    GoSlice.Equal ([1] : List Nat) [1, 2] = GoSlice.Equal [1, 2] [1] ∧
    ([1] : List Nat).length ≠ ([1, 2] : List Nat).length ∧
    GoSlice.Equal ([1] : List Nat) [1, 2] = false :=
  ⟨(equal_props (T := Nat)).1 [1, 2],
    (equal_props (T := Nat)).2.1 [1] [1, 2],
    by decide,
    (equal_props (T := Nat)).2.2.2 [1] [1, 2] (by decide)⟩

/-- Claim C8: `At` with `0 <= n < Length()` is a pure read returning the
element at position `n` (the embedding is a function of the sequence
value, so it cannot mutate it); any other `n` is a fatal out-of-bounds
panic (`none`), never a recoverable error value. -/
theorem at_spec {T : Type} (items : List T) (n : Int) :
    (0 ≤ n ∧ n < items.length →
      GoSlice.At items n = items[n.toNat]? ∧ (GoSlice.At items n).isSome) ∧
    (¬ (0 ≤ n ∧ n < items.length) → GoSlice.At items n = none) := by
  constructor
  · rintro ⟨h0, h1⟩
    constructor
    · simp [GoSlice.At, h0, h1]
    · have hn : n.toNat < items.length := by omega
      simp [GoSlice.At, h0, h1, List.getElem?_eq_getElem hn]
  · intro h
    simp only [GoSlice.At, if_neg h]

/-- Witness for C8 at concrete inputs (both branches). -/
theorem at_spec_witness :
    (GoSlice.At ([7, 8] : List Nat) 1 = ([7, 8] : List Nat)[(1 : Int).toNat]? ∧
      (GoSlice.At ([7, 8] : List Nat) 1).isSome) ∧
    GoSlice.At ([7, 8] : List Nat) 2 = none :=
  ⟨(at_spec [7, 8] 1).1 ⟨by decide, by decide⟩,
    (at_spec [7, 8] 2).2 (by decide)⟩

namespace GoStore

/-- A store of arrays addressed by references, modelling Go's heap of
slice backing arrays: a `Slice` value holds a reference to one array. -/
structure Store (T : Type) where
  arrays : List (List T)

/-- Read the array a reference points to. -/
def readArr {T : Type} (st : Store T) (r : Nat) : List T :=
  st.arrays.getD r []

/-- Overwrite the array a reference points to. -/
def writeArr {T : Type} (st : Store T) (r : Nat) (a : List T) : Store T :=
  ⟨st.arrays.set r a⟩

/-- `Clone` (slice.go): `slices.Clone(self.Items)` allocates a fresh
backing array holding a copy of the elements and returns it; the caller
gets a reference that aliases no existing array. -/
def Clone {T : Type} (st : Store T) (r : Nat) : Store T × Nat :=
  (⟨st.arrays ++ [readArr st r]⟩, st.arrays.length)

/-- An arbitrary mutation of the collection returned by `Clone`: write
value `v` at index `i` of the array behind reference `r`. -/
def setElem {T : Type} (st : Store T) (r : Nat) (i : Nat) (v : T) : Store T :=
  writeArr st r ((readArr st r).set i v)

end GoStore

theorem readArr_append_left {T : Type} (l : List (List T)) (x : List T)
    (r : Nat) (h : r < l.length) :
    GoStore.readArr ⟨l ++ [x]⟩ r = GoStore.readArr ⟨l⟩ r := by
  simp only [GoStore.readArr, List.getD_eq_getElem?_getD]
  rw [List.getElem?_append_left h]

theorem readArr_set_ne {T : Type} (l : List (List T)) (c r : Nat)
    (a : List T) (h : c ≠ r) :
    GoStore.readArr ⟨l.set c a⟩ r = GoStore.readArr ⟨l⟩ r := by
  simp only [GoStore.readArr, List.getD_eq_getElem?_getD]
  rw [List.getElem?_set_ne h]

/-- Claim C4: mutating the collection returned by `q.Clone()` never
changes `q`: after any write to the clone's array, the array behind
`q`'s reference — hence `q.Length()` and every in-bounds `q.At(i)` — is
unchanged. -/
theorem clone_independent {T : Type} (st : GoStore.Store T) (r : Nat)
    (hr : r < st.arrays.length) (i : Nat) (v : T) :
    GoStore.readArr
        (GoStore.setElem (GoStore.Clone st r).1 (GoStore.Clone st r).2 i v) r =
      GoStore.readArr st r ∧
    GoSlice.Length (GoStore.readArr
        (GoStore.setElem (GoStore.Clone st r).1 (GoStore.Clone st r).2 i v) r) =
      GoSlice.Length (GoStore.readArr st r) ∧
    ∀ k : Int, GoSlice.At (GoStore.readArr
        (GoStore.setElem (GoStore.Clone st r).1 (GoStore.Clone st r).2 i v) r) k =
      GoSlice.At (GoStore.readArr st r) k := by
  have hne : st.arrays.length ≠ r := by omega
  have h1 : GoStore.readArr
      (GoStore.setElem (GoStore.Clone st r).1 (GoStore.Clone st r).2 i v) r =
      GoStore.readArr (GoStore.Clone st r).1 r :=
    readArr_set_ne (st.arrays ++ [GoStore.readArr st r]) st.arrays.length r _ hne
  have h2 : GoStore.readArr (GoStore.Clone st r).1 r = GoStore.readArr st r :=
    readArr_append_left st.arrays (GoStore.readArr st r) r hr
  have hmain := h1.trans h2
  exact ⟨hmain, by rw [hmain], fun k => by rw [hmain]⟩

/-- Witness for C4 at a concrete store. -/
theorem clone_independent_witness :
    (0 : Nat) < (GoStore.Store.mk [[1, 2]] : GoStore.Store Nat).arrays.length ∧
    GoStore.readArr
        (GoStore.setElem (GoStore.Clone (GoStore.Store.mk [[1, 2]]) 0).1
          (GoStore.Clone (GoStore.Store.mk ([[1, 2]] : List (List Nat))) 0).2 0 9) 0 =
      GoStore.readArr (GoStore.Store.mk [[1, 2]]) 0 :=
  ⟨by decide, (clone_independent (GoStore.Store.mk [[1, 2]]) 0 (by decide) 0 9).1⟩

namespace GoStr

/-- The semantics of `strings.Index` (used by `Contains`, `Cut`,
`Count`, `Split`, `Replace`): position of the first occurrence of `sub`
in `s`, as an `Option` (`none` for Go's `-1`). With `sub = []` it is
`some 0`, matching `Index(s, "") == 0`. -/
def indexOfSub : List Char → List Char → Option Nat
  | s, sub =>
    if sub.isPrefixOf s then some 0
    else
      match s with
      | [] => none
      | _ :: rest => (indexOfSub rest sub).map (· + 1)

/-- `strings.Index`: first occurrence of `sub` in `s`, or `-1`. -/
def Index (s sub : List Char) : Int :=
  match indexOfSub s sub with
  | some m => (m : Int)
  | none => -1

/-- `Contains` (string.go): `strings.Contains(self.Value(), substr)`,
which is `Index(s, substr) >= 0`. -/
def Contains (s sub : List Char) : Bool :=
  0 ≤ Index s sub

end GoStr

theorem indexOfSub_le (s sub : List Char) :
    ∀ {m : Nat}, GoStr.indexOfSub s sub = some m → m + sub.length ≤ s.length := by
  induction s with
  | nil =>
    intro m h
    rw [GoStr.indexOfSub] at h
    by_cases hp : sub.isPrefixOf []
    · have hsub : sub = [] :=
        List.prefix_nil.mp (List.isPrefixOf_iff_prefix.mp hp)
      simp [hp] at h
      simp [hsub, ← h]
    · simp [hp] at h
  | cons c rest ih =>
    intro m h
    rw [GoStr.indexOfSub] at h
    by_cases hp : sub.isPrefixOf (c :: rest)
    · have hlen : sub.length ≤ (c :: rest).length :=
        (List.isPrefixOf_iff_prefix.mp hp).length_le
      simp [hp] at h
      omega
    · simp [hp] at h
      obtain ⟨m', hm', rfl⟩ := h
      have := ih hm'
      simp only [List.length_cons]
      omega

namespace GoStr

/-- The counting loop of `strings.Count` for a non-empty `substr`:
repeatedly find the next occurrence and skip past it. The fuel makes
the recursion structural: with `sub` non-empty every iteration consumes
at least one character, so `|s|` units of fuel always suffice, and when
the fuel runs out the remaining string is empty so `0` is the exact
count of the remaining occurrences. -/
def countLoop (sub : List Char) : List Char → Nat → Nat
  | _, 0 => 0
  | s, fuel + 1 =>
    match indexOfSub s sub with
    | none => 0
    | some m => countLoop sub (s.drop (m + sub.length)) fuel + 1

/-- `Count` (string.go): `strings.Count` — for an empty `substr` it is
1 + the number of runes in `s`, else the number of non-overlapping
occurrences. -/
def Count (s sub : List Char) : Nat :=
  if sub = [] then s.length + 1 else countLoop sub s s.length

/-- `New` (string.go): `String(s)`, the identity injection. -/
def NewStr (s : List Char) : List Char :=
  s

/-- `Value` (string.go): `string(self)`, the identity projection. -/
def Value (s : List Char) : List Char :=
  s

/-- `Length` (string.go): `len(self.Value())`, the number of BYTES of
the UTF-8 encoding — the sum of the UTF-8 sizes of the runes. -/
def Length (s : List Char) : Nat :=
  (s.map Char.utf8Size).sum

/-- `Cut` (string.go): `strings.Cut` — if `Index(s, sep) = i >= 0`
return `(s[:i], s[i+len(sep):], true)`, else `(s, "", false)`. -/
def Cut (s sep : List Char) : List Char × List Char × Bool :=
  match indexOfSub s sep with
  | some i => (s.take i, s.drop (i + sep.length), true)
  | none => (s, [], false)

/-- `explode` (strings package): one single-rune string per rune. -/
def explode (s : List Char) : List (List Char) :=
  s.map (fun c => [c])

/-- The splitting loop of `genSplit` (strings package): the fuel is the
number of separators still to split on (`genSplit` allocates exactly
`Count(s, sep) + 1` result slots and loops `Count(s, sep)` times). -/
def splitLoop (sep : List Char) : List Char → Nat → List (List Char)
  | s, 0 => [s]
  | s, k + 1 =>
    match indexOfSub s sep with
    | none => [s]
    | some m => s.take m :: splitLoop sep (s.drop (m + sep.length)) k

/-- `Split` (string.go): `strings.Split(s, sep)`, i.e. `genSplit` with
no count limit: empty separator explodes `s` into runes (empty `s`
gives the empty slice); otherwise split around every occurrence. -/
def Split (s sep : List Char) : List (List Char) :=
  if sep = [] then explode s
  else splitLoop sep s (Count s sep)

/-- The replacement loop of `strings.Replace` for an EMPTY `old`, after
the initial replacement: each of the remaining `k` iterations copies
one rune and inserts `new` after it; the remainder of `s` follows. -/
def replaceEmptyLoop (new : List Char) : List Char → Nat → List Char
  | s, 0 => s
  | [], _ + 1 => []
  | c :: rest, k + 1 => c :: (new ++ replaceEmptyLoop new rest k)

/-- The replacement loop of `strings.Replace` for a non-empty `old`:
each of the `k` iterations replaces the next occurrence of `old`. -/
def replaceLoop (old new : List Char) : List Char → Nat → List Char
  | s, 0 => s
  | s, k + 1 =>
    match indexOfSub s old with
    | none => s
    | some j => s.take j ++ new ++ replaceLoop old new (s.drop (j + old.length)) k

/-- `Replace` (string.go): `strings.Replace(s, old, new, n)` — returns
`s` unchanged if `old == new` or `n == 0` or there is no occurrence;
otherwise performs `k` replacements where `k` is `Count(s, old)` when
`n < 0` or `Count(s, old) < n`, else `n`. An empty `old` matches at the
beginning and after each rune. -/
def Replace (s old new : List Char) (n : Int) : List Char :=
  if old = new ∨ n = 0 then s
  else if Count s old = 0 then s
  else
    let k := if n < 0 ∨ (Count s old : Int) < n then Count s old else n.toNat
    if old = [] then new ++ replaceEmptyLoop new s (k - 1)
    else replaceLoop old new s k

/-- `ReplaceAll` (string.go): `strings.ReplaceAll(s, old, new)`, which
is `Replace(s, old, new, -1)`. -/
def ReplaceAll (s old new : List Char) : List Char :=
  Replace s old new (-1)

end GoStr

/-- Claim C9: constructing a text wrapper from the underlying primitive
of an existing wrapper and reading it back yields the identical
primitive value: `New(s.Value()).Value() == s.Value()`. -/
theorem new_value_roundtrip (s : List Char) :
    GoStr.Value (GoStr.NewStr (GoStr.Value s)) = GoStr.Value s :=
  rfl

theorem length_ge_rune_count (s : List Char) : s.length ≤ GoStr.Length s := by
  induction s with
  | nil => simp [GoStr.Length]
  | cons c rest ih =>
    have hc := Char.utf8Size_pos c
    simp only [GoStr.Length, List.map_cons, List.sum_cons, List.length_cons]
    simp only [GoStr.Length] at ih
    omega

/-- Claim C10: `Length` on the text wrapper counts BYTES of the UTF-8
encoding, not runes: any string containing a rune of UTF-8 size greater
than one has `Length()` strictly greater than its rune count. -/
theorem length_counts_bytes (s : List Char)
    (h : ∃ c ∈ s, 1 < c.utf8Size) : s.length < GoStr.Length s := by
  induction s with
  | nil => simp at h
  | cons c rest ih =>
    have hc := Char.utf8Size_pos c
    have hrest := length_ge_rune_count rest
    simp only [GoStr.Length, List.map_cons, List.sum_cons, List.length_cons]
    simp only [GoStr.Length] at ih hrest
    rcases h with ⟨d, hd, hdsz⟩
    rcases List.mem_cons.mp hd with rfl | hdin
    · omega
    · have := ih ⟨d, hdin, hdsz⟩
      omega

/-- Witness for C10 at the concrete input `"é"` (a 2-byte rune). -/
theorem length_counts_bytes_witness :
    (∃ c ∈ "é".toList, 1 < c.utf8Size) ∧
      ("é".toList).length < GoStr.Length "é".toList :=
  ⟨by decide, length_counts_bytes "é".toList (by decide)⟩

theorem contains_false_index_none (s sub : List Char)
    (h : GoStr.Contains s sub = false) : GoStr.indexOfSub s sub = none := by
  cases hidx : GoStr.indexOfSub s sub with
  | none => rfl
  | some m =>
    exfalso
    simp [GoStr.Contains, GoStr.Index, hidx] at h

/-- Claim C5: `Split("a,,b", ",")` yields `["a", "", "b"]`; splitting an
empty receiver with an empty separator yields the empty sequence; and a
non-empty separator not occurring in the receiver yields the one-element
sequence holding the receiver itself. -/
theorem split_spec :
    GoStr.Split "a,,b".toList ",".toList =
      ["a".toList, "".toList, "b".toList] ∧
    GoStr.Split "".toList "".toList = [] ∧
    (∀ s sep : List Char, sep ≠ [] → GoStr.Contains s sep = false →
      GoStr.Split s sep = [s]) := by
  refine ⟨by decide, by decide, ?_⟩
  intro s sep hsep hc
  have hnone := contains_false_index_none s sep hc
  rw [GoStr.Split, if_neg hsep]
  cases GoStr.Count s sep with
  | zero => rfl
  | succ k => simp [GoStr.splitLoop, hnone]

/-- Witness for C5: the not-found branch applied at a concrete input. -/
theorem split_spec_witness :
    "," ≠ "" ∧ GoStr.Contains "xyz".toList ",".toList = false ∧
      GoStr.Split "xyz".toList ",".toList = ["xyz".toList] :=
  ⟨by decide, by decide,
    split_spec.2.2 "xyz".toList ",".toList (by decide) (by decide)⟩

/-- Claim C6: `Cut` around the FIRST occurrence of the separator with
`found=true` when it occurs (`Cut("key=value", "=") = ("key", "value",
true)`); when it does not occur, the original receiver, the empty
string and `found=false` come back — a sentinel, not a fatal failure
(`Cut("noequals", "=") = ("noequals", "", false)`). -/
theorem cut_spec :
    GoStr.Cut "key=value".toList "=".toList =
      ("key".toList, "value".toList, true) ∧
    GoStr.Cut "a=b=c".toList "=".toList = ("a".toList, "b=c".toList, true) ∧
    GoStr.Cut "noequals".toList "=".toList = ("noequals".toList, [], false) ∧
    (∀ s sep : List Char, GoStr.Contains s sep = false →
      GoStr.Cut s sep = (s, [], false)) := by
  refine ⟨by decide, by decide, by decide, ?_⟩
  intro s sep hc
  rw [GoStr.Cut, contains_false_index_none s sep hc]

/-- Witness for C6: the not-found branch applied at a concrete input. -/
theorem cut_spec_witness :
    GoStr.Contains "noequals".toList "=".toList = false ∧
      GoStr.Cut "noequals".toList "=".toList = ("noequals".toList, [], false) :=
  ⟨by decide, cut_spec.2.2.2 "noequals".toList "=".toList (by decide)⟩

/-- Claim C7: `Replace` with ANY negative count is `ReplaceAll`: a
negative count means unlimited replacements, and `ReplaceAll` is
`Replace` with count `-1`. -/
theorem replace_neg_eq_replaceAll (s old new : List Char) (n : Int)
    (hn : n < 0) : GoStr.Replace s old new n = GoStr.ReplaceAll s old new := by
  unfold GoStr.ReplaceAll GoStr.Replace
  by_cases ho : old = new
  · simp [ho]
  · have h1 : ¬ (old = new ∨ n = 0) := by
      push_neg
      exact ⟨ho, by omega⟩
    have h2 : ¬ (old = new ∨ (-1 : Int) = 0) := by
      push_neg
      exact ⟨ho, by decide⟩
    rw [if_neg h1, if_neg h2]
    by_cases hm : GoStr.Count s old = 0
    · rw [if_pos hm, if_pos hm]
    · rw [if_neg hm, if_neg hm]
      have hk1 : (if n < 0 ∨ (GoStr.Count s old : Int) < n
          then GoStr.Count s old else n.toNat) = GoStr.Count s old :=
        if_pos (Or.inl hn)
      have hk2 : (if (-1 : Int) < 0 ∨ (GoStr.Count s old : Int) < (-1 : Int)
          then GoStr.Count s old else (-1 : Int).toNat) = GoStr.Count s old :=
        if_pos (Or.inl (by decide))
      simp only [hk1, hk2]

/-- Witness for C7 at a concrete negative count. -/
theorem replace_neg_eq_replaceAll_witness :
    (-2 : Int) < 0 ∧
      GoStr.Replace "aaa".toList "a".toList "b".toList (-2) =
        GoStr.ReplaceAll "aaa".toList "a".toList "b".toList :=
  ⟨by decide,
    replace_neg_eq_replaceAll "aaa".toList "a".toList "b".toList (-2) (by decide)⟩
